import Mathlib

/-!
# Verification of the portfolio core (`app/core/portfolio.py`)

Shallow embedding of the FIFO cost-basis engine, the price and FX
resolvers, the position calculator and the portfolio aggregator of the
financial dashboard.  Python `Decimal` values are modelled as exact
rationals (`ℚ`): the code manipulates exact decimal quantities and every
arithmetic operation appearing in the verified claims is exact.
Timestamps are modelled as naturals (only their order matters).

Rows of the DuckDB tables (`holdings`, `transactions`, `prices`,
`fx_rates`, `accounts`) are modelled as structures carrying exactly the
columns the queried code reads; `id` doubles as the insertion sequence
(the schema's `INTEGER PRIMARY KEY`).
-/

namespace Portfolio

/-- `TransactionAction` from `app/core/models.py`. -/
inductive Action where
  | buy
  | sell
  | transfer
  | dividend
  | coupon
  | adjustment
deriving DecidableEq, Repr

/-- A row of the `holdings` table, as read by `calculate_positions`. -/
structure Holding where
  id : ℕ
  assetType : String
  symbol : String
  name : Option String
  currency : String
deriving DecidableEq, Repr

/-- A row of the `transactions` table, as read by
`_calculate_holding_position`.  `qty`, `price`, `fee` are nullable
(`DECIMAL` columns), hence `Option ℚ`. -/
structure Txn where
  id : ℕ
  holdingId : ℕ
  ts : ℕ
  action : Action
  qty : Option ℚ
  price : Option ℚ
  fee : Option ℚ
deriving DecidableEq, Repr

/-- A row of the `prices` table (`price` is `NOT NULL`). -/
structure PriceRow where
  id : ℕ
  holdingId : ℕ
  ts : ℕ
  price : ℚ
deriving DecidableEq, Repr

/-- A row of the `fx_rates` table (`rate` is `NOT NULL`). -/
structure FxRow where
  id : ℕ
  ts : ℕ
  baseCcy : String
  quoteCcy : String
  rate : ℚ
deriving DecidableEq, Repr

/-- A row of the `accounts` table, as read by `get_portfolio_summary`. -/
structure AccountRow where
  id : ℕ
  balance : ℚ
  active : Bool
deriving DecidableEq, Repr

/-- The database snapshot: the tables the portfolio computation reads,
each a list in insertion order. -/
structure DB where
  holdings : List Holding
  transactions : List Txn
  prices : List PriceRow
  fxRates : List FxRow
  accounts : List AccountRow
deriving DecidableEq, Repr

/-- The `Position` dataclass from `app/core/models.py`. -/
structure Position where
  holding : Holding
  qty : ℚ
  avgCost : ℚ
  currentPrice : ℚ
  valueNative : ℚ
  valuePln : ℚ
  unrealizedPl : ℚ
deriving DecidableEq, Repr

/-- The summary dict returned by `get_portfolio_summary`. -/
structure Summary where
  netWorth : ℚ
  holdingsValue : ℚ
  unrealizedPl : ℚ
  cash : ℚ
deriving DecidableEq, Repr

/-! ## SQL result orderings

`ORDER BY ts ASC, id ASC` on transactions is a total order (ids are
primary keys); we realise it with an insertion sort on the
lexicographic key `(ts, id)`.  `ORDER BY symbol` on holdings likewise,
keyed by the symbol string.  `ORDER BY ts DESC LIMIT 1` on prices and
fx rates names no secondary key, so among rows sharing the maximal
timestamp SQL leaves the choice unspecified; the embedding
deterministically keeps the earliest-scanned row of maximal timestamp. -/

/-- Insert a transaction into a list sorted by `(ts, id)` ascending. -/
def insertTxn (t : Txn) : List Txn → List Txn
  | [] => [t]
  | u :: us =>
    if t.ts < u.ts ∨ (t.ts = u.ts ∧ t.id ≤ u.id) then t :: u :: us
    else u :: insertTxn t us

/-- Sort transactions by `(ts, id)` ascending (`ORDER BY ts ASC, id ASC`). -/
def sortTxns : List Txn → List Txn
  | [] => []
  | t :: ts => insertTxn t (sortTxns ts)

/-- The holding's ledger: `SELECT ... FROM transactions WHERE holding_id = ?
ORDER BY ts ASC, id ASC`. -/
def entriesFor (db : DB) (hid : ℕ) : List Txn :=
  sortTxns (db.transactions.filter (fun t => t.holdingId = hid))

/-- Insert a holding into a list sorted by symbol. -/
def insertHolding (h : Holding) : List Holding → List Holding
  | [] => [h]
  | g :: gs => if h.symbol ≤ g.symbol then h :: g :: gs else g :: insertHolding h gs

/-- Sort holdings by symbol (`ORDER BY symbol`). -/
def sortHoldings : List Holding → List Holding
  | [] => []
  | h :: hs => insertHolding h (sortHoldings hs)

/-- `ORDER BY ts DESC LIMIT 1` over price rows: a row of maximal `ts`
(the earliest-scanned one if several share it). -/
def pickLatestPrice (rows : List PriceRow) : Option PriceRow :=
  rows.foldl
    (fun acc r =>
      match acc with
      | none => some r
      | some b => if b.ts < r.ts then some r else some b)
    none

/-- `ORDER BY ts DESC LIMIT 1` over fx rows: a row of maximal `ts`
(the earliest-scanned one if several share it). -/
def pickLatestFx (rows : List FxRow) : Option FxRow :=
  rows.foldl
    (fun acc r =>
      match acc with
      | none => some r
      | some b => if b.ts < r.ts then some r else some b)
    none

/-- `_get_latest_price`: most recent cached price for a holding, or
`none` when the holding has no price rows. -/
def getLatestPrice (db : DB) (hid : ℕ) : Option ℚ :=
  (pickLatestPrice (db.prices.filter (fun r => r.holdingId = hid))).map (·.price)

/-- `_get_fx_rate`: 1 for equal currencies, else the latest direct
rate, else the inverted latest inverse rate, else 1. -/
def getFxRate (db : DB) (fromCcy toCcy : String) : ℚ :=
  if fromCcy = toCcy then 1
  else
    match pickLatestFx (db.fxRates.filter
        (fun r => r.baseCcy = fromCcy ∧ r.quoteCcy = toCcy)) with
    | some r => r.rate
    | none =>
      match pickLatestFx (db.fxRates.filter
          (fun r => r.baseCcy = toCcy ∧ r.quoteCcy = fromCcy)) with
      | some r => 1 / r.rate
      | none => 1

/-! ## The FIFO lot engine

State: the lot queue (a list of `(qty, cost_per_unit)` pairs, head =
oldest) and the accumulated realized P/L. -/

/-- One lot: `(quantity, cost per unit)`. -/
abbrev Lot := ℚ × ℚ

/-- The `while remaining_to_sell > 0 and fifo_queue:` loop of the sell
branch.  `qty`, `price`, `fee` are the sell transaction's fields,
`remaining` the remaining-to-sell counter, `acc` the realized P/L
accumulated so far.  Returns the queue and realized P/L after the loop. -/
def sellLoop (qty price fee : ℚ) : ℚ → List Lot → ℚ → List Lot × ℚ
  | _, [], acc => ([], acc)
  | remaining, (oq, oc) :: rest, acc =>
    if 0 < remaining then
      if oq ≤ remaining then
        sellLoop qty price fee (remaining - oq) rest
          (acc + (oq * price - oq * oc - fee * (oq / qty)))
      else
        ((oq - remaining, oc) :: rest,
          acc + (remaining * price - remaining * oc - fee * (remaining / qty)))
    else ((oq, oc) :: rest, acc)

/-- The body of the transaction loop of `_calculate_holding_position`:
null fields are zeroed, buys append a fee-amortized lot (if `qty > 0`),
sells run the FIFO loop, other actions are ignored. -/
def applyTxn (st : List Lot × ℚ) (t : Txn) : List Lot × ℚ :=
  let qty := t.qty.getD 0
  let price := t.price.getD 0
  let fee := t.fee.getD 0
  match t.action with
  | .buy => if 0 < qty then (st.1 ++ [(qty, price + fee / qty)], st.2) else st
  | .sell => sellLoop qty price fee qty st.1 st.2
  | _ => st

/-- Run the FIFO engine over a ledger, starting from an empty queue and
zero realized P/L. -/
def processTxns (txns : List Txn) : List Lot × ℚ :=
  txns.foldl applyTxn ([], 0)

/-- `_calculate_holding_position`: FIFO over the holding's ledger, then
totals, price fallback, FX conversion.  `none` when the ledger is empty
or no quantity remains. -/
def calcHoldingPosition (db : DB) (h : Holding) : Option Position :=
  let txns := entriesFor db h.id
  if txns = [] then none
  else
    let st := processTxns txns
    let totalQty := (st.1.map Prod.fst).sum
    if totalQty = 0 then none
    else
      let totalCost := (st.1.map (fun l => l.1 * l.2)).sum
      let avgCost := totalCost / totalQty
      let latestPrice := (getLatestPrice db h.id).getD avgCost
      let valueNative := totalQty * latestPrice
      let fxRate := getFxRate db h.currency "PLN"
      let valuePln := valueNative * fxRate
      let costPln := totalCost * fxRate
      some
        { holding := h
          qty := totalQty
          avgCost := avgCost
          currentPrice := latestPrice
          valueNative := valueNative
          valuePln := valuePln
          unrealizedPl := valuePln - costPln }

/-- `calculate_positions`: positions of all holdings in symbol order,
keeping only computed positions with positive quantity. -/
def calculatePositions (db : DB) : List Position :=
  (sortHoldings db.holdings).filterMap
    (fun h => (calcHoldingPosition db h).bind
      (fun p => if 0 < p.qty then some p else none))

/-- `get_portfolio_summary`: portfolio-wide totals in PLN. -/
def getPortfolioSummary (db : DB) : Summary :=
  let positions := calculatePositions db
  let totalValue := (positions.map (·.valuePln)).sum
  let totalUnrealized := (positions.map (·.unrealizedPl)).sum
  let totalCash := ((db.accounts.filter (·.active)).map (·.balance)).sum
  { netWorth := totalValue + totalCash
    holdingsValue := totalValue
    unrealizedPl := totalUnrealized
    cash := totalCash }

/-! ## Exception-aware variant

The only partial operation the computation performs is `Decimal`
division: in Python a zero divisor raises (`DivisionByZero`, or
`InvalidOperation` for 0/0) under the default context.  To settle the
claim that the computation never raises, this variant re-traces the same
code with every division routed through `divE`, in the `Except` monad. -/

/-- Python `Decimal` division: raises on a zero divisor. -/
def divE (a b : ℚ) : Except String ℚ :=
  if b = 0 then .error "DecimalDivision" else .ok (a / b)

/-- `sellLoop` with checked division. -/
def sellLoopE (qty price fee : ℚ) :
    ℚ → List Lot → ℚ → Except String (List Lot × ℚ)
  | _, [], acc => .ok ([], acc)
  | remaining, (oq, oc) :: rest, acc =>
    if 0 < remaining then
      if oq ≤ remaining then do
        let frac ← divE oq qty
        sellLoopE qty price fee (remaining - oq) rest
          (acc + (oq * price - oq * oc - fee * frac))
      else do
        let frac ← divE remaining qty
        .ok ((oq - remaining, oc) :: rest,
          acc + (remaining * price - remaining * oc - fee * frac))
    else .ok ((oq, oc) :: rest, acc)

/-- `applyTxn` with checked division. -/
def applyTxnE (st : List Lot × ℚ) (t : Txn) : Except String (List Lot × ℚ) :=
  let qty := t.qty.getD 0
  let price := t.price.getD 0
  let fee := t.fee.getD 0
  match t.action with
  | .buy =>
    if 0 < qty then do
      let u ← divE fee qty
      .ok (st.1 ++ [(qty, price + u)], st.2)
    else .ok st
  | .sell => sellLoopE qty price fee qty st.1 st.2
  | _ => .ok st

/-- `processTxns` with checked division. -/
def processTxnsE (txns : List Txn) : Except String (List Lot × ℚ) :=
  txns.foldlM applyTxnE ([], 0)

/-- `_get_fx_rate` with checked division (`Decimal("1.0") / rate` on the
inverse branch is the one unguarded division of the module). -/
def getFxRateE (db : DB) (fromCcy toCcy : String) : Except String ℚ :=
  if fromCcy = toCcy then .ok 1
  else
    match pickLatestFx (db.fxRates.filter
        (fun r => r.baseCcy = fromCcy ∧ r.quoteCcy = toCcy)) with
    | some r => .ok r.rate
    | none =>
      match pickLatestFx (db.fxRates.filter
          (fun r => r.baseCcy = toCcy ∧ r.quoteCcy = fromCcy)) with
      | some r => divE 1 r.rate
      | none => .ok 1

/-- `_calculate_holding_position` with checked division. -/
def calcHoldingPositionE (db : DB) (h : Holding) :
    Except String (Option Position) :=
  let txns := entriesFor db h.id
  if txns = [] then .ok none
  else do
    let st ← processTxnsE txns
    let totalQty := (st.1.map Prod.fst).sum
    if totalQty = 0 then .ok none
    else do
      let totalCost := (st.1.map (fun l => l.1 * l.2)).sum
      let avgCost ← divE totalCost totalQty
      let latestPrice := (getLatestPrice db h.id).getD avgCost
      let valueNative := totalQty * latestPrice
      let fxRate ← getFxRateE db h.currency "PLN"
      let valuePln := valueNative * fxRate
      let costPln := totalCost * fxRate
      .ok (some
        { holding := h
          qty := totalQty
          avgCost := avgCost
          currentPrice := latestPrice
          valueNative := valueNative
          valuePln := valuePln
          unrealizedPl := valuePln - costPln })

/-- `calculate_positions` with checked division. -/
def calculatePositionsE (db : DB) : Except String (List Position) :=
  (sortHoldings db.holdings).foldlM
    (fun acc h => do
      let p? ← calcHoldingPositionE db h
      match p? with
      | some p => if 0 < p.qty then pure (acc ++ [p]) else pure acc
      | none => pure acc)
    []

/-- `get_portfolio_summary` with checked division. -/
def getPortfolioSummaryE (db : DB) : Except String Summary := do
  let positions ← calculatePositionsE db
  let totalValue := (positions.map (·.valuePln)).sum
  let totalUnrealized := (positions.map (·.unrealizedPl)).sum
  let totalCash := ((db.accounts.filter (·.active)).map (·.balance)).sum
  .ok
    { netWorth := totalValue + totalCash
      holdingsValue := totalValue
      unrealizedPl := totalUnrealized
      cash := totalCash }

/-! ## Specification-side observer for the sell branch

`consumedLots` lists the increments `(c, unit_cost)` a sell of
`remaining` units consumes from a queue, mirroring the spec's phrase
"for each increment consumed".  It is compared against `sellLoop`. -/

/-- The increments a sell consumes: whole head lots while their quantity
is at most the remaining amount, then a final partial increment. -/
def consumedLots : ℚ → List Lot → List Lot
  | _, [] => []
  | remaining, (oq, oc) :: rest =>
    if 0 < remaining then
      if oq ≤ remaining then (oq, oc) :: consumedLots (remaining - oq) rest
      else [(remaining, oc)]
    else []

/-! ## Basic lemmas about the sell loop -/

/-- With nothing left to sell, the loop leaves the queue and the
realized P/L untouched. -/
theorem sellLoop_of_nonpos (qty price fee : ℚ) (remaining : ℚ)
    (queue : List Lot) (acc : ℚ) (h : ¬ 0 < remaining) :
    sellLoop qty price fee remaining queue acc = (queue, acc) := by
  cases queue with
  | nil => simp [sellLoop]
  | cons l rest => cases l with
    | mk oq oc => simp [sellLoop, h]

/-- The realized P/L the loop adds is the sum, over the consumed
increments, of proceeds minus matched cost minus the proportional fee. -/
theorem sellLoop_snd_eq (qty price fee : ℚ) :
    ∀ (queue : List Lot) (remaining acc : ℚ),
      (sellLoop qty price fee remaining queue acc).2 =
        acc + ((consumedLots remaining queue).map
          (fun l => l.1 * price - l.1 * l.2 - fee * (l.1 / qty))).sum := by
  intro queue
  induction queue with
  | nil => intro remaining acc; simp [sellLoop, consumedLots]
  | cons l rest ih =>
    intro remaining acc
    cases l with
    | mk oq oc =>
      by_cases hrem : 0 < remaining
      · by_cases hle : oq ≤ remaining
        · simp only [sellLoop, consumedLots, if_pos hrem, if_pos hle, ih,
            List.map_cons, List.sum_cons]
          ring
        · simp only [sellLoop, consumedLots, if_pos hrem, if_neg hle,
            List.map_cons, List.map_nil, List.sum_cons, List.sum_nil]
          ring
      · simp [sellLoop, consumedLots, hrem]

/-- The lot-queue positivity invariant is preserved by the sell loop. -/
theorem sellLoop_pos (qty price fee : ℚ) :
    ∀ (queue : List Lot) (remaining acc : ℚ),
      (∀ l ∈ queue, 0 < l.1) →
      ∀ l ∈ (sellLoop qty price fee remaining queue acc).1, 0 < l.1 := by
  intro queue
  induction queue with
  | nil => intro remaining acc _ l hl; simp [sellLoop] at hl
  | cons hd rest ih =>
    intro remaining acc hpos l hl
    cases hd with
    | mk oq oc =>
      by_cases hrem : 0 < remaining
      · by_cases hle : oq ≤ remaining
        · rw [sellLoop, if_pos hrem, if_pos hle] at hl
          exact ih _ _ (fun x hx => hpos x (List.mem_cons_of_mem _ hx)) l hl
        · rw [sellLoop, if_pos hrem, if_neg hle] at hl
          rcases List.mem_cons.mp hl with h | h
          · subst h
            exact sub_pos.mpr (lt_of_not_le hle)
          · exact hpos l (List.mem_cons_of_mem _ h)
      · rw [sellLoop, if_neg hrem] at hl
        exact hpos l hl

/-- The lot-queue positivity invariant holds after replaying any ledger:
every lot in the queue has strictly positive quantity. -/
theorem processTxns_pos (txns : List Txn) :
    ∀ l ∈ (processTxns txns).1, 0 < l.1 := by
  suffices h : ∀ (st : List Lot × ℚ), (∀ l ∈ st.1, 0 < l.1) →
      ∀ l ∈ (txns.foldl applyTxn st).1, 0 < l.1 by
    intro l hl
    exact h ([], 0) (by simp) l hl
  induction txns with
  | nil => intro st hst l hl; exact hst l hl
  | cons t rest ih =>
    intro st hst l hl
    refine ih (applyTxn st t) ?_ l hl
    intro x hx
    obtain ⟨i, hid, ts, act, q, pr, fe⟩ := t
    cases act with
    | buy =>
      by_cases hq : 0 < q.getD 0
      · simp only [applyTxn, if_pos hq] at hx
        rcases List.mem_append.mp hx with h | h
        · exact hst x h
        · simp at h
          rw [h]
          exact hq
      · simp only [applyTxn, if_neg hq] at hx
        exact hst x hx
    | sell => exact sellLoop_pos _ _ _ _ _ _ hst x hx
    | transfer => exact hst x hx
    | dividend => exact hst x hx
    | coupon => exact hst x hx
    | adjustment => exact hst x hx

deriving instance DecidableEq for Except

/-! ## Bridging the checked-division run to the pure run -/

/-- Reduction of `Except` bind on a success value. -/
theorem okBind {ε α β : Type} (a : α) (f : α → Except ε β) :
    (Except.ok (ε := ε) a >>= f) = f a := rfl

/-- Reduction of `pure` on `Except`. -/
theorem pureOk {ε α : Type} (a : α) : (pure a : Except ε α) = .ok a := rfl

/-- Reduction of `Except` bind on a pure value. -/
theorem pureBind {ε α β : Type} (a : α) (f : α → Except ε β) :
    ((pure a : Except ε α) >>= f) = f a := rfl

/-- Checked division succeeds exactly on nonzero divisors. -/
theorem divE_ok {a b : ℚ} (h : b ≠ 0) : divE a b = .ok (a / b) := by
  rw [divE, if_neg h]

/-- The checked sell loop never errors: the divisor `qty` is nonzero
whenever the loop body (and hence a division) is reached. -/
theorem sellLoopE_ok (q p f : ℚ) :
    ∀ (queue : List Lot) (remaining acc : ℚ), (0 < remaining → q ≠ 0) →
      sellLoopE q p f remaining queue acc =
        .ok (sellLoop q p f remaining queue acc) := by
  intro queue
  induction queue with
  | nil => intro remaining acc _; rfl
  | cons hd rest ih =>
    intro remaining acc hnz
    cases hd with
    | mk oq oc =>
      by_cases hrem : 0 < remaining
      · have hq : q ≠ 0 := hnz hrem
        by_cases hle : oq ≤ remaining
        · rw [sellLoopE, if_pos hrem, if_pos hle,
            sellLoop, if_pos hrem, if_pos hle, divE_ok hq]
          exact ih _ _ (fun _ => hq)
        · rw [sellLoopE, if_pos hrem, if_neg hle,
            sellLoop, if_pos hrem, if_neg hle, divE_ok hq]
          rfl
      · rw [sellLoopE, if_neg hrem, sellLoop, if_neg hrem]

/-- The checked transaction step never errors: the buy branch divides
only under its `qty > 0` guard, the sell branch only inside the loop. -/
theorem applyTxnE_ok (st : List Lot × ℚ) (t : Txn) :
    applyTxnE st t = .ok (applyTxn st t) := by
  obtain ⟨i, hid, ts, act, q, pr, fe⟩ := t
  cases act with
  | buy =>
    by_cases hq : 0 < q.getD 0
    · simp only [applyTxnE, applyTxn, if_pos hq, divE_ok (ne_of_gt hq)]
      rfl
    · simp only [applyTxnE, applyTxn, if_neg hq]
  | sell => exact sellLoopE_ok _ _ _ _ _ _ (fun h0 => ne_of_gt h0)
  | transfer => rfl
  | dividend => rfl
  | coupon => rfl
  | adjustment => rfl

/-- The checked FIFO replay of a ledger never errors. -/
theorem processTxnsE_ok (txns : List Txn) :
    processTxnsE txns = .ok (processTxns txns) := by
  suffices h : ∀ (st : List Lot × ℚ),
      txns.foldlM applyTxnE st = .ok (txns.foldl applyTxn st) from h ([], 0)
  induction txns with
  | nil => intro st; rfl
  | cons t rest ih =>
    intro st
    rw [List.foldlM_cons, applyTxnE_ok, okBind, List.foldl_cons]
    exact ih (applyTxn st t)

/-- A row selected by `pickLatestFx` belongs to the scanned list. -/
theorem pickLatestFx_mem {rows : List FxRow} {r : FxRow}
    (h : pickLatestFx rows = some r) : r ∈ rows := by
  suffices hgen : ∀ (rows : List FxRow) (acc : Option FxRow),
      rows.foldl
        (fun acc x =>
          match acc with
          | none => some x
          | some b => if b.ts < x.ts then some x else some b)
        acc = some r → acc = some r ∨ r ∈ rows by
    rcases hgen rows none h with hacc | hmem
    · cases hacc
    · exact hmem
  intro rows'
  induction rows' with
  | nil => intro acc hacc; exact Or.inl hacc
  | cons x xs ih =>
    intro acc hacc
    rw [List.foldl_cons] at hacc
    rcases ih _ hacc with hstep | hmem
    · cases acc with
      | none =>
        have hx : some x = some r := hstep
        exact Or.inr (by rw [← Option.some.inj hx]; exact List.mem_cons_self _ _)
      | some b =>
        have hb : (if b.ts < x.ts then some x else some b) = some r := hstep
        by_cases hts : b.ts < x.ts
        · rw [if_pos hts] at hb
          exact Or.inr (by rw [← Option.some.inj hb]; exact List.mem_cons_self _ _)
        · rw [if_neg hts] at hb
          exact Or.inl hb
    · exact Or.inr (List.mem_cons_of_mem _ hmem)

/-- The checked FX resolver never errors when every observed rate is
nonzero. -/
theorem getFxRateE_ok (db : DB) (a b : String)
    (hr : ∀ r ∈ db.fxRates, r.rate ≠ 0) :
    getFxRateE db a b = .ok (getFxRate db a b) := by
  rw [getFxRateE, getFxRate]
  by_cases hab : a = b
  · rw [if_pos hab, if_pos hab]
  · rw [if_neg hab, if_neg hab]
    rcases hdir : pickLatestFx (db.fxRates.filter
        (fun r => r.baseCcy = a ∧ r.quoteCcy = b)) with _ | r
    · simp only [hdir]
      rcases hinv : pickLatestFx (db.fxRates.filter
          (fun r => r.baseCcy = b ∧ r.quoteCcy = a)) with _ | r
      · simp only [hinv]
      · simp only [hinv]
        have hmem : r ∈ db.fxRates :=
          (List.mem_filter.mp (pickLatestFx_mem hinv)).1
        exact divE_ok (hr r hmem)
    · simp only [hdir]

/-- The checked position computation for one holding never errors when
every observed FX rate is nonzero. -/
theorem calcHoldingPositionE_ok (db : DB) (h : Holding)
    (hr : ∀ r ∈ db.fxRates, r.rate ≠ 0) :
    calcHoldingPositionE db h = .ok (calcHoldingPosition db h) := by
  simp only [calcHoldingPositionE, calcHoldingPosition]
  by_cases h1 : entriesFor db h.id = []
  · rw [if_pos h1, if_pos h1]
  · rw [if_neg h1, if_neg h1]
    simp only [processTxnsE_ok, okBind]
    by_cases h2 : ((processTxns (entriesFor db h.id)).1.map Prod.fst).sum = 0
    · rw [if_pos h2, if_pos h2]
    · rw [if_neg h2, if_neg h2]
      simp only [divE_ok h2, okBind, getFxRateE_ok db h.currency "PLN" hr]

/-- The checked all-holdings computation never errors when every
observed FX rate is nonzero, and agrees with the pure computation. -/
theorem calculatePositionsE_ok (db : DB)
    (hr : ∀ r ∈ db.fxRates, r.rate ≠ 0) :
    calculatePositionsE db = .ok (calculatePositions db) := by
  rw [calculatePositionsE, calculatePositions]
  suffices hgen : ∀ (hs : List Holding) (acc : List Position),
      hs.foldlM
        (fun acc h => do
          let p? ← calcHoldingPositionE db h
          match p? with
          | some p => if 0 < p.qty then pure (acc ++ [p]) else pure acc
          | none => pure acc)
        acc =
      .ok (acc ++ hs.filterMap (fun h => (calcHoldingPosition db h).bind
        (fun p => if 0 < p.qty then some p else none))) by
    simpa using hgen (sortHoldings db.holdings) []
  intro hs
  induction hs with
  | nil => intro acc; simp [pureOk]
  | cons h hs ih =>
    intro acc
    rw [List.foldlM_cons]
    simp only [calcHoldingPositionE_ok db h hr, okBind]
    rcases hc : calcHoldingPosition db h with _ | p
    · simp only [hc]
      rw [pureBind]
      refine (ih acc).trans ?_
      simp [List.filterMap_cons, hc]
    · simp only [hc]
      by_cases hq : 0 < p.qty
      · rw [if_pos hq, pureBind]
        refine (ih (acc ++ [p])).trans ?_
        simp [List.filterMap_cons, hc, hq, List.append_assoc]
      · rw [if_neg hq, pureBind]
        refine (ih acc).trans ?_
        simp [List.filterMap_cons, hc, hq]

/-- The checked summary computation never errors when every observed FX
rate is nonzero, and agrees with the pure computation. -/
theorem getPortfolioSummaryE_ok (db : DB)
    (hr : ∀ r ∈ db.fxRates, r.rate ≠ 0) :
    getPortfolioSummaryE db = .ok (getPortfolioSummary db) := by
  simp only [getPortfolioSummaryE, getPortfolioSummary,
    calculatePositionsE_ok db hr, okBind]

/-- Inversion of a successful single-holding position computation: the
returned position carries the input holding, and the remaining lot
queue is non-empty. -/
theorem calcHoldingPosition_some (db : DB) (h : Holding) (p : Position)
    (hp : calcHoldingPosition db h = some p) :
    p.holding = h ∧ (processTxns (entriesFor db h.id)).1 ≠ [] := by
  simp only [calcHoldingPosition] at hp
  by_cases h1 : entriesFor db h.id = []
  · rw [if_pos h1] at hp; cases hp
  · rw [if_neg h1] at hp
    by_cases h2 : ((processTxns (entriesFor db h.id)).1.map Prod.fst).sum = 0
    · rw [if_pos h2] at hp; cases hp
    · rw [if_neg h2] at hp
      have hrec := Option.some.inj hp
      constructor
      · rw [← hrec]
      · intro hnil
        apply h2
        rw [hnil]
        rfl

/-! ## The reference scenario (test_portfolio.py) -/

/-- The database built by `test_portfolio.py`: one BTC holding in USD,
buy 1 @ 30000 fee 100, buy 2 @ 40000 fee 200, sell 1.5 @ 50000 fee 150,
latest price 60000, one USD→PLN rate 4. -/
def scenarioDb : DB :=
  { holdings := [⟨1, "crypto", "BTC", some "Bitcoin", "USD"⟩]
    transactions :=
      [⟨1, 1, 100, .buy, some 1, some 30000, some 100⟩,
       ⟨2, 1, 200, .buy, some 2, some 40000, some 200⟩,
       ⟨3, 1, 300, .sell, some (3 / 2), some 50000, some 150⟩]
    prices := [⟨1, 1, 400, 60000⟩]
    fxRates := [⟨1, 400, "USD", "PLN", 4⟩]
    accounts := [] }

/-- C1: on the reference ledger (buy 1 @ 30000 fee 100, buy 2 @ 40000
fee 200, sell 1.5 @ 50000 fee 150) with latest price 60000 and observed
USD→PLN rate 4, the computed position has remaining quantity 1.5,
average cost 40100, native value 90000, reporting value 360000 and
unrealized P/L 119400. -/
theorem scenario_position_values :
    calculatePositions scenarioDb =
      [{ holding := ⟨1, "crypto", "BTC", some "Bitcoin", "USD"⟩
         qty := 3 / 2
         avgCost := 40100
         currentPrice := 60000
         valueNative := 90000
         valuePln := 360000
         unrealizedPl := 119400 }] := by
  decide!

/-- C2: a buy with positive quantity appends exactly the fee-amortized
lot `(q, p + f/q)` at the tail of the queue, leaving the earlier lots
and the realized P/L unchanged; a buy with zero quantity changes
nothing. -/
theorem buy_appends_amortized_lot (queue : List Lot) (rpl : ℚ)
    (i hid ts : ℕ) (q p f : ℚ) :
    (0 < q → applyTxn (queue, rpl) ⟨i, hid, ts, .buy, some q, some p, some f⟩ =
      (queue ++ [(q, p + f / q)], rpl)) ∧
    (q = 0 → applyTxn (queue, rpl) ⟨i, hid, ts, .buy, some q, some p, some f⟩ =
      (queue, rpl)) := by
  constructor
  · intro hq
    simp [applyTxn, hq]
  · intro hq
    simp [applyTxn, hq]

/-- Witness for C2 at concrete inputs. -/
theorem buy_appends_amortized_lot_w :
    applyTxn ([(1, 5)], 7) ⟨4, 1, 9, .buy, some 2, some 3, some 5⟩ =
      ([(1, 5)] ++ [(2, 3 + 5 / 2)], 7) ∧
    applyTxn ([(1, 5)], 7) ⟨4, 1, 9, .buy, some 0, some 3, some 5⟩ =
      ([(1, 5)], 7) :=
  ⟨(buy_appends_amortized_lot [(1, 5)] 7 4 1 9 2 3 5).1 (by norm_num),
   (buy_appends_amortized_lot [(1, 5)] 7 4 1 9 0 3 5).2 rfl⟩

/-- C3: for a sell of quantity `q > 0` at price `p` with fee `f`, the
realized P/L added is the sum over the consumed increments `(c, u)` of
`c·p − c·u − f·(c/q)`; in particular, selling the entirety of a single
lot allocates the whole fee `f` to that consumption. -/
theorem sell_fee_allocated_proportionally (q p f : ℚ) (hq : 0 < q) :
    (∀ (queue : List Lot) (acc : ℚ),
      (sellLoop q p f q queue acc).2 =
        acc + ((consumedLots q queue).map
          (fun l => l.1 * p - l.1 * l.2 - f * (l.1 / q))).sum) ∧
    (∀ (u acc : ℚ),
      sellLoop q p f q [(q, u)] acc = ([], acc + (q * p - q * u - f))) := by
  constructor
  · intro queue acc
    exact sellLoop_snd_eq q p f queue q acc
  · intro u acc
    rw [sellLoop, if_pos hq, if_pos (le_refl q), sellLoop,
      div_self (ne_of_gt hq), mul_one]

/-- Witness for C3 at concrete inputs. -/
theorem sell_fee_allocated_proportionally_w :
    (sellLoop 2 10 4 2 [(1, 3), (5, 6)] 0).2 =
      0 + ((consumedLots 2 [(1, 3), (5, 6)]).map
        (fun l => l.1 * 10 - l.1 * l.2 - 4 * (l.1 / 2))).sum ∧
    sellLoop 2 10 4 2 [(2, 3)] 1 = ([], 1 + (2 * 10 - 2 * 3 - 4)) :=
  ⟨(sell_fee_allocated_proportionally 2 10 4 (by norm_num)).1 [(1, 3), (5, 6)] 0,
   (sell_fee_allocated_proportionally 2 10 4 (by norm_num)).2 3 1⟩

/-- C4: selling exactly the head lot's quantity (positive, per the lot
invariant) removes that lot and returns the rest of the queue unchanged
in both quantities and unit costs. -/
theorem sell_consumes_head_lot (oq oc p f acc : ℚ) (rest : List Lot)
    (h : 0 < oq) :
    sellLoop oq p f oq ((oq, oc) :: rest) acc =
      (rest, acc + (oq * p - oq * oc - f)) := by
  rw [sellLoop, if_pos h, if_pos (le_refl oq), div_self (ne_of_gt h), mul_one,
    sub_self]
  exact sellLoop_of_nonpos oq p f 0 rest _ (by norm_num)

/-- Witness for C4 at concrete inputs. -/
theorem sell_consumes_head_lot_w :
    sellLoop 2 10 1 2 [(2, 3), (4, 5), (6, 7)] 0 =
      ([(4, 5), (6, 7)], 0 + (2 * 10 - 2 * 3 - 1)) :=
  sell_consumes_head_lot 2 3 10 1 0 [(4, 5), (6, 7)] (by norm_num)

/-- C5: an oversell (quantity sold exceeds the total quantity held, all
lots having positive quantity) empties the queue, accumulates realized
P/L only over the actually consumed lots, silently drops the shortfall,
and raises no error (the checked-division run returns a value). -/
theorem oversell_truncates_silently (q p f acc : ℚ) (queue : List Lot)
    (hpos : ∀ l ∈ queue, 0 < l.1)
    (hover : (queue.map Prod.fst).sum < q) :
    sellLoop q p f q queue acc =
      ([], acc + (queue.map
        (fun l => l.1 * p - l.1 * l.2 - f * (l.1 / q))).sum) ∧
    sellLoopE q p f q queue acc = .ok (sellLoop q p f q queue acc) := by
  constructor
  · have main : ∀ (qs : List Lot) (remaining a : ℚ), (∀ l ∈ qs, 0 < l.1) →
        (qs.map Prod.fst).sum < remaining →
        sellLoop q p f remaining qs a =
          ([], a + (qs.map (fun l => l.1 * p - l.1 * l.2 - f * (l.1 / q))).sum) := by
      intro qs
      induction qs with
      | nil => intro remaining a _ _; simp [sellLoop]
      | cons hd rest ih =>
        intro remaining a hp hov
        cases hd with
        | mk oq oc =>
          have hoq : 0 < oq := hp (oq, oc) (List.mem_cons_self _ _)
          have hrestpos : ∀ l ∈ rest, 0 < l.1 :=
            fun l hl => hp l (List.mem_cons_of_mem _ hl)
          have hrestsum : 0 ≤ (rest.map Prod.fst).sum :=
            List.sum_nonneg (by
              intro x hx
              rcases List.mem_map.mp hx with ⟨l, hl, hlx⟩
              exact le_of_lt (hlx ▸ hrestpos l hl))
          have hsum : oq + (rest.map Prod.fst).sum < remaining := by
            simpa using hov
          have hle : oq ≤ remaining :=
            le_of_lt (lt_of_le_of_lt (le_add_of_nonneg_right hrestsum) hsum)
          have hrem : 0 < remaining := lt_of_lt_of_le hoq hle
          rw [sellLoop, if_pos hrem, if_pos hle,
            ih (remaining - oq) _ hrestpos (by linarith)]
          simp only [List.map_cons, List.sum_cons]
          rw [add_assoc]
    exact main queue q acc hpos hover
  · exact sellLoopE_ok q p f queue q acc (fun hq0 => ne_of_gt hq0)

/-- Witness for C5 at concrete inputs. -/
theorem oversell_truncates_silently_w :
    sellLoop 10 20 5 10 [(1, 2), (3, 4)] 0 =
      ([], 0 + ([((1 : ℚ), (2 : ℚ)), (3, 4)].map
        (fun l => l.1 * 20 - l.1 * l.2 - 5 * (l.1 / 10))).sum) ∧
    sellLoopE 10 20 5 10 [(1, 2), (3, 4)] 0 =
      .ok (sellLoop 10 20 5 10 [(1, 2), (3, 4)] 0) :=
  oversell_truncates_silently 10 20 5 0 [(1, 2), (3, 4)]
    (by decide) (by norm_num)


/-- A database with rates USD→PLN at 4 and EUR→USD at 2, no other data.
Used to exercise the FX resolution order. -/
def fxDb : DB :=
  { holdings := []
    transactions := []
    prices := []
    fxRates := [⟨1, 10, "USD", "PLN", 4⟩, ⟨2, 20, "EUR", "USD", 2⟩]
    accounts := [] }

/-- A database whose only FX observation is USD→PLN at 4. -/
def fxDb1 : DB :=
  { holdings := []
    transactions := []
    prices := []
    fxRates := [⟨1, 10, "USD", "PLN", 4⟩]
    accounts := [] }

/-- C6: the FX resolver returns 1 for equal currencies, else the
latest-by-timestamp direct rate if one exists, else the inverse of the
latest-by-timestamp inverse rate if one exists, else 1; in particular,
when only a rate A→B = r is observed, resolving B→A yields 1/r. -/
theorem fx_resolver_order (db : DB) (a b : String) :
    (a = b → getFxRate db a b = 1) ∧
    (∀ r : FxRow, a ≠ b →
      pickLatestFx (db.fxRates.filter
        (fun x => x.baseCcy = a ∧ x.quoteCcy = b)) = some r →
      getFxRate db a b = r.rate) ∧
    (∀ r : FxRow, a ≠ b →
      pickLatestFx (db.fxRates.filter
        (fun x => x.baseCcy = a ∧ x.quoteCcy = b)) = none →
      pickLatestFx (db.fxRates.filter
        (fun x => x.baseCcy = b ∧ x.quoteCcy = a)) = some r →
      getFxRate db a b = 1 / r.rate) ∧
    (a ≠ b →
      pickLatestFx (db.fxRates.filter
        (fun x => x.baseCcy = a ∧ x.quoteCcy = b)) = none →
      pickLatestFx (db.fxRates.filter
        (fun x => x.baseCcy = b ∧ x.quoteCcy = a)) = none →
      getFxRate db a b = 1) ∧
    (∀ (db2 : DB) (i ts : ℕ) (r : ℚ), a ≠ b →
      db2.fxRates = [⟨i, ts, a, b, r⟩] → getFxRate db2 b a = 1 / r) := by
  refine ⟨?_, ?_, ?_, ?_, ?_⟩
  · intro hab
    rw [getFxRate, if_pos hab]
  · intro r hab hdir
    rw [getFxRate, if_neg hab, hdir]
  · intro r hab hdir hinv
    rw [getFxRate, if_neg hab, hdir, hinv]
  · intro hab hdir hinv
    rw [getFxRate, if_neg hab, hdir, hinv]
  · intro db2 i ts r hab hrows
    have hba : b ≠ a := Ne.symm hab
    have hdir : db2.fxRates.filter
        (fun x => x.baseCcy = b ∧ x.quoteCcy = a) = [] := by
      rw [hrows]
      simp [hab]
    have hinv : db2.fxRates.filter
        (fun x => x.baseCcy = a ∧ x.quoteCcy = b) = [⟨i, ts, a, b, r⟩] := by
      rw [hrows]
      simp
    rw [getFxRate, if_neg hba, hdir, hinv]
    rfl

/-- Witness for C6: all four resolution branches and the symmetry
instance, at concrete currencies and rates. -/
theorem fx_resolver_order_w :
    getFxRate fxDb "PLN" "PLN" = 1 ∧
    getFxRate fxDb "USD" "PLN" = 4 ∧
    getFxRate fxDb "USD" "EUR" = 1 / 2 ∧
    getFxRate fxDb "GBP" "JPY" = 1 ∧
    getFxRate fxDb1 "PLN" "USD" = 1 / 4 :=
  ⟨(fx_resolver_order fxDb "PLN" "PLN").1 rfl,
   (fx_resolver_order fxDb "USD" "PLN").2.1 ⟨1, 10, "USD", "PLN", 4⟩
     (by decide) (by decide!),
   (fx_resolver_order fxDb "USD" "EUR").2.2.1 ⟨2, 20, "EUR", "USD", 2⟩
     (by decide) (by decide!) (by decide!),
   (fx_resolver_order fxDb "GBP" "JPY").2.2.2.1
     (by decide) (by decide!) (by decide!),
   (fx_resolver_order fxDb1 "USD" "PLN").2.2.2.2 fxDb1 1 10 4
     (by decide) rfl⟩

/-- A holding that was fully divested: one buy entirely sold again. -/
def divestDb : DB :=
  { holdings := [⟨1, "crypto", "AAA", none, "USD"⟩]
    transactions :=
      [⟨1, 1, 10, .buy, some 1, some 10, some 0⟩,
       ⟨2, 1, 20, .sell, some 1, some 12, some 0⟩]
    prices := []
    fxRates := []
    accounts := [] }

/-- C7: a holding whose replayed ledger leaves no lots yields no
position, and every position listed by the all-holdings computation
comes from a holding with a non-empty remaining lot queue. -/
theorem fully_divested_excluded :
    (∀ (db : DB) (h : Holding),
      (processTxns (entriesFor db h.id)).1 = [] →
        calcHoldingPosition db h = none) ∧
    (∀ (db : DB) (p : Position), p ∈ calculatePositions db →
      (processTxns (entriesFor db p.holding.id)).1 ≠ []) := by
  constructor
  · intro db h hq
    simp only [calcHoldingPosition]
    by_cases h1 : entriesFor db h.id = []
    · rw [if_pos h1]
    · rw [if_neg h1, hq]
      simp
  · intro db p hmem
    simp only [calculatePositions, List.mem_filterMap] at hmem
    obtain ⟨h, _, hbind⟩ := hmem
    rcases hc : calcHoldingPosition db h with _ | p'
    · rw [hc] at hbind
      have hbind' : (none : Option Position) = some p := hbind
      cases hbind'
    · rw [hc] at hbind
      have hbind' : (if 0 < p'.qty then some p' else none) = some p := hbind
      by_cases hq' : 0 < p'.qty
      · rw [if_pos hq'] at hbind'
        have hpp : p' = p := Option.some.inj hbind'
        subst hpp
        have hinv := calcHoldingPosition_some db h p' hc
        rw [hinv.1]
        exact hinv.2
      · rw [if_neg hq'] at hbind'
        cases hbind'

/-- Witness for C7: the fully divested holding computes to `none`, and
the reference scenario's listed position has remaining lots. -/
theorem fully_divested_excluded_w :
    calcHoldingPosition divestDb ⟨1, "crypto", "AAA", none, "USD"⟩ = none ∧
    (processTxns (entriesFor scenarioDb
      (Position.holding
        { holding := ⟨1, "crypto", "BTC", some "Bitcoin", "USD"⟩
          qty := 3 / 2
          avgCost := 40100
          currentPrice := 60000
          valueNative := 90000
          valuePln := 360000
          unrealizedPl := 119400 }).id)).1 ≠ [] :=
  ⟨fully_divested_excluded.1 divestDb ⟨1, "crypto", "AAA", none, "USD"⟩
     (by decide!),
   fully_divested_excluded.2 scenarioDb
     { holding := ⟨1, "crypto", "BTC", some "Bitcoin", "USD"⟩
       qty := 3 / 2
       avgCost := 40100
       currentPrice := 60000
       valueNative := 90000
       valuePln := 360000
       unrealizedPl := 119400 }
     (by decide!)⟩

/-- C9: with remaining lots but no price observation and no FX
observation for the holding's currency, the position falls back to cost
basis and a 1:1 rate: reporting value = average cost × quantity and
unrealized P/L = 0, exactly. -/
theorem missing_price_and_fx_fallback (db : DB) (h : Holding)
    (hq : (processTxns (entriesFor db h.id)).1 ≠ [])
    (hp : db.prices.filter (fun r => r.holdingId = h.id) = [])
    (hdir : db.fxRates.filter
      (fun r => r.baseCcy = h.currency ∧ r.quoteCcy = "PLN") = [])
    (hinv : db.fxRates.filter
      (fun r => r.baseCcy = "PLN" ∧ r.quoteCcy = h.currency) = []) :
    ∃ p, calcHoldingPosition db h = some p ∧
      p.valuePln = p.avgCost * p.qty ∧ p.unrealizedPl = 0 := by
  have hpos : ∀ l ∈ (processTxns (entriesFor db h.id)).1, 0 < l.1 :=
    processTxns_pos _
  have hsum : 0 < ((processTxns (entriesFor db h.id)).1.map Prod.fst).sum := by
    apply List.sum_pos
    · intro x hx
      rcases List.mem_map.mp hx with ⟨l, hl, rfl⟩
      exact hpos l hl
    · simpa using hq
  have h0 : ((processTxns (entriesFor db h.id)).1.map Prod.fst).sum ≠ 0 :=
    ne_of_gt hsum
  have htx : entriesFor db h.id ≠ [] := by
    intro hx
    apply hq
    rw [hx]
    rfl
  have hlp : getLatestPrice db h.id = none := by
    rw [getLatestPrice, hp]
    rfl
  have hfx : getFxRate db h.currency "PLN" = 1 := by
    by_cases hc : h.currency = "PLN"
    · rw [getFxRate, if_pos hc]
    · rw [getFxRate, if_neg hc, hdir, hinv]
      rfl
  rcases hcp : calcHoldingPosition db h with _ | p
  · exfalso
    simp only [calcHoldingPosition, if_neg htx, if_neg h0] at hcp
    cases hcp
  · have hcp2 := hcp
    simp only [calcHoldingPosition, if_neg htx, if_neg h0] at hcp2
    have hrec : p = _ := (Option.some.inj hcp2).symm
    refine ⟨p, rfl, ?_, ?_⟩
    · rw [hrec]
      simp only [hlp, hfx, Option.getD_none, mul_one]
      ring
    · rw [hrec]
      simp only [hlp, hfx, Option.getD_none, mul_one]
      rw [mul_comm, div_mul_cancel₀ _ h0, sub_self]

/-- A holding with a ledger but no price rows and no FX rows. -/
def bareDb : DB :=
  { holdings := [⟨1, "stock", "BBB", none, "USD"⟩]
    transactions := [⟨1, 1, 10, .buy, some 2, some 30, some 4⟩]
    prices := []
    fxRates := []
    accounts := [] }

/-- Witness for C9 on a concrete holding without price or FX data. -/
theorem missing_price_and_fx_fallback_w :
    ∃ p, calcHoldingPosition bareDb ⟨1, "stock", "BBB", none, "USD"⟩ = some p ∧
      p.valuePln = p.avgCost * p.qty ∧ p.unrealizedPl = 0 :=
  missing_price_and_fx_fallback bareDb ⟨1, "stock", "BBB", none, "USD"⟩
    (by decide!) rfl rfl rfl

/-- A database whose only FX observation is PLN→USD at rate 0, plus a
USD holding with one buy: resolving USD→PLN takes the inverse branch
and divides by the zero rate. -/
def zeroRateDb : DB :=
  { holdings := [⟨1, "crypto", "BTC", none, "USD"⟩]
    transactions := [⟨1, 1, 100, .buy, some 1, some 10, some 0⟩]
    prices := []
    fxRates := [⟨1, 100, "PLN", "USD", 0⟩]
    accounts := [] }

/-- Counterexample to C10: on a snapshot containing a zero FX rate
observed in the inverse direction, the position and summary
computations raise a decimal division error instead of degrading into
returned values. -/
theorem computations_raise_on_zero_rate :
    calculatePositionsE zeroRateDb = .error "DecimalDivision" ∧
    getPortfolioSummaryE zeroRateDb = .error "DecimalDivision" := by
  constructor
  · decide!
  · decide!

/-- C10 (amended): for every input ledger, price snapshot and FX
snapshot in which no observed FX rate is exactly zero, the position and
summary computations never raise an error: they return the values of
the pure computation. -/
theorem computations_never_raise (db : DB)
    (hr : ∀ r ∈ db.fxRates, r.rate ≠ 0) :
    calculatePositionsE db = .ok (calculatePositions db) ∧
    getPortfolioSummaryE db = .ok (getPortfolioSummary db) :=
  ⟨calculatePositionsE_ok db hr, getPortfolioSummaryE_ok db hr⟩

/-- Witness for C10 (amended) on the reference scenario. -/
theorem computations_never_raise_w :
    calculatePositionsE scenarioDb = .ok (calculatePositions scenarioDb) ∧
    getPortfolioSummaryE scenarioDb = .ok (getPortfolioSummary scenarioDb) :=
  computations_never_raise scenarioDb (by decide!)

end Portfolio
